import Mathlib
set_option maxHeartbeats 1000000
/-- A JavaScript value as it can arrive in a socket payload (JSON-like). -/
inductive JsVal where
  | undef : JsVal
  | null : JsVal
  | bool : Bool → JsVal
  | num : ℚ → JsVal
  | str : String → JsVal
  | obj : List (String × JsVal) → JsVal

/-- Digit characters to the natural number they denote (fold base 10). -/
def readDigits (l : List Char) : ℕ :=
  l.foldl (fun a c => a * 10 + (c.toNat - 48)) 0

/-- JS `String.prototype.toUpperCase` on the ASCII codes this server
handles: upper-case each character (structurally, so that concrete
evaluation reduces). -/
def jsToUpper (s : String) : String :=
  ⟨s.data.map Char.toUpper⟩

/-- Leading/trailing whitespace removal: JS `Number` trims its string
argument before parsing. -/
def trimChars (l : List Char) : List Char :=
  ((l.dropWhile Char.isWhitespace).reverse.dropWhile Char.isWhitespace).reverse

/-- The JS number `0.5`, written as an already-reduced rational so that
concrete evaluation stays in normal form. -/
def half : ℚ := ⟨1, 2, two_ne_zero, Nat.coprime_one_left 2⟩

/-- Parse an unsigned decimal literal (`"12"`, `"3.5"`, `".5"`, `"5."`),
`none` for anything else (JS `NaN`). -/
def strToNumUnsigned (l : List Char) : Option ℚ :=
  let intPart := l.takeWhile (· ≠ '.')
  match l.dropWhile (· ≠ '.') with
  | [] =>
      if intPart ≠ [] ∧ intPart.all Char.isDigit then some (readDigits intPart) else none
  | _ :: frac =>
      if (intPart.all Char.isDigit ∧ frac.all Char.isDigit) ∧ (intPart ≠ [] ∨ frac ≠ []) then
        some ((readDigits intPart : ℚ) + (readDigits frac : ℚ) / (10 ^ frac.length))
      else none

/-- JS `Number(v)` coercion; `none` models `NaN`. -/
def toNumber : JsVal → Option ℚ
  | .undef => none
  | .null => some 0
  | .bool b => some (if b then 1 else 0)
  | .num q => some q
  | .str s =>
      match trimChars s.data with
      | [] => some 0
      | '-' :: rest => (strToNumUnsigned rest).map (fun q => -q)
      | '+' :: rest => strToNumUnsigned rest
      | l => strToNumUnsigned l
  | .obj _ => none

/-- JS `Number(v) || d`: the fallback `d` is taken when the coercion is
`NaN` or `0`. -/
def numOrD (v : JsVal) (d : ℚ) : ℚ :=
  match toNumber v with
  | none => d
  | some q => if q = 0 then d else q

/-- JS truthiness of a value. -/
def truthy : JsVal → Bool
  | .undef => false
  | .null => false
  | .bool b => b
  | .num q => q ≠ 0
  | .str s => s ≠ ""
  | .obj _ => true

/-- JS `Map.set` / `result[k] = v` on an insertion-ordered association
list: update the existing entry in place, else append. -/
def objSet {α : Type} (l : List (String × α)) (k : String) (v : α) :
    List (String × α) :=
  match l with
  | [] => [(k, v)]
  | (k₂, v₂) :: rest => if k₂ = k then (k, v) :: rest else (k₂, v₂) :: objSet rest k v

/-- JS `Map.get` / property read on an association list. -/
def lookupA {α : Type} (l : List (String × α)) (k : String) : Option α :=
  match l with
  | [] => none
  | (k₂, v₂) :: rest => if k₂ = k then some v₂ else lookupA rest k

/-- JS `Map.delete` on an association list. -/
def deleteA {α : Type} (l : List (String × α)) (k : String) : List (String × α) :=
  l.filter (fun kv => kv.1 ≠ k)

/-- The keys of an association list. -/
def keysA {α : Type} (l : List (String × α)) : List String :=
  l.map Prod.fst

/-- Loop body of `cleanAllocations`: `n = Number(v) || 0`; when `n > 0`,
`result[k] = Math.floor(n)`. -/
def cleanStep (result : List (String × ℤ)) (kv : String × JsVal) :
    List (String × ℤ) :=
  let n := numOrD kv.2 0
  if 0 < n then objSet result kv.1 ⌊n⌋ else result

/-- Whether the value is a (non-null) object, i.e. passes the
`!alloc || typeof alloc !== "object"` guard. -/
def isObjB : JsVal → Bool
  | .obj _ => true
  | _ => false

/-- The sanitizer `cleanAllocations(alloc)` from `server.js` lines 44–52: non-object
input gives `{}`; otherwise fold `cleanStep` over the entries. -/
def cleanAllocations (alloc : JsVal) : List (String × ℤ) :=
  match alloc with
  | .obj fields => fields.foldl cleanStep []
  | _ => []

/-- Re-inject a sanitized allocation as a JS object (each amount a JS
number), to feed the sanitizer its own output. -/
def allocToJs (l : List (String × ℤ)) : JsVal :=
  .obj (l.map (fun kv => (kv.1, .num (kv.2 : ℚ))))

/-- A voter record `{name, coins, code, submitted}` (coins stay rational:
`Math.max(0, Number(...)||0)` never floors). -/
structure Voter where
  name : String
  coins : ℚ
  code : String
  submitted : Bool
  deriving DecidableEq

/-- An option record `{id, label}` of a poll. -/
structure Opt where
  id : String
  label : String
  deriving DecidableEq

/-- The poll aggregate stored in the `polls` map. -/
structure Poll where
  id : String
  title : String
  status : String
  options : List Opt
  voters : List Voter
  votes : List (String × List (String × ℤ))
  deriving DecidableEq

/-- The two global maps of the server: `polls` (id → poll) and
`codeToPoll` (voter code → poll id). -/
structure ServerState where
  polls : List (String × Poll)
  codeToPoll : List (String × String)
  deriving DecidableEq

/-- Acknowledgement payload `{ok, error?}` of `submit_vote`. -/
structure Ack where
  ok : Bool
  error : Option String
  deriving DecidableEq

/-- The generator `ensureCodeUnique(code)` from `server.js` lines 32–36, with the stream
of `randCode()` results passed in as `supply` (its entries are upper-case
by construction, so `toUpperCase` on them is the identity): start from the
preferred code upper-cased when it is truthy, else from the first random
code, and retry on the supply while the candidate is a key of
`codeToPoll`; `none` models exhausting the finite supply model. -/
def ensureCodeUnique (index : List String) (preferred : Option String)
    (supply : List String) : Option (String × List String) :=
  match preferred with
  | some s =>
      if s = "" then findFresh index supply
      else if jsToUpper s ∈ index then findFresh index supply
      else some (jsToUpper s, supply)
  | none => findFresh index supply
where
  /-- The retry loop: first supply entry not in the index. -/
  findFresh (index : List String) : List String → Option (String × List String)
    | [] => none
    | c :: rest => if c ∈ index then findFresh index rest else some (c, rest)

/-- The input object of `add_voter` (absent fields = absent properties). -/
structure VoterIn where
  name : Option String := none
  coins : Option JsVal := none
  code : Option String := none
  submitted : Option JsVal := none

/-- The input object of `add_option` (`opt.id`, `opt.label`). -/
structure OptIn where
  oid : Option String := none
  olabel : Option String := none

/-- The `add_option` handler (lines 128–134): default `{id: uid(), label:
"Новый вариант"}` when `opt && opt.id` is falsy, else the given id with
`String(option.label || "")`; `freshId` stands for the `uid()` result.
Returns the new state and the broadcast poll ids. -/
def add_option (st : ServerState) (id : String) (opt : Option OptIn)
    (freshId : String) : ServerState × List String :=
  match lookupA st.polls id with
  | none => (st, [])
  | some p =>
      let chosen : Opt :=
        match opt with
        | none => ⟨freshId, "Новый вариант"⟩
        | some o =>
            match o.oid with
            | none => ⟨freshId, "Новый вариант"⟩
            | some s =>
                if s = "" then ⟨freshId, "Новый вариант"⟩
                else ⟨s, o.olabel.getD ""⟩
      ({ st with polls := objSet st.polls id { p with options := p.options ++ [chosen] } },
       [id])

/-- The `delete_option` handler (lines 142–148): filter the option out and
`delete alloc[optId]` across all stored votes. -/
def delete_option (st : ServerState) (id optId : String) :
    ServerState × List String :=
  match lookupA st.polls id with
  | none => (st, [])
  | some p =>
      let p₂ := { p with
        options := p.options.filter (fun o => o.id ≠ optId),
        votes := p.votes.map (fun kv => (kv.1, kv.2.filter (fun e => e.1 ≠ optId))) }
      ({ st with polls := objSet st.polls id p₂ }, [id])

/-- The `add_voter` handler (lines 159–167): defaults `{name:"Участник",
coins:10, submitted:false}` merged with the input, coins
`Math.max(0, Number(v.coins)||0)`, code via `ensureCodeUnique(v.code)`,
then the reverse index is updated. -/
def add_voter (st : ServerState) (id : String) (voter : Option VoterIn)
    (supply : List String) : Option (ServerState × List String) :=
  match lookupA st.polls id with
  | none => some (st, [])
  | some p =>
      let vin := voter.getD {}
      match ensureCodeUnique (keysA st.codeToPoll) vin.code supply with
      | none => none
      | some (code, _) =>
          let v : Voter :=
            { name := vin.name.getD "Участник",
              coins := max 0 (numOrD (vin.coins.getD (.num 10)) 0),
              code := code,
              submitted := truthy (vin.submitted.getD (.bool false)) }
          some ({ polls := objSet st.polls id { p with voters := p.voters ++ [v] },
                  codeToPoll := objSet st.codeToPoll code p.id }, [id])

/-- The `for` loop of `bulk_add_voters` (lines 173–177): `m` iterations,
each drawing a fresh code, pushing `{name: "Участник " + newSize, coins:
c, code, submitted: false}` and registering the code. -/
def bulkLoop (pid : String) (c : ℚ) :
    ℕ → List Voter → List (String × String) → List String →
    Option (List Voter × List (String × String) × List String)
  | 0, vs, idx, sup => some (vs, idx, sup)
  | m + 1, vs, idx, sup =>
      match ensureCodeUnique (keysA idx) none sup with
      | none => none
      | some (code, sup₂) =>
          bulkLoop pid c m
            (vs ++ [{ name := "Участник " ++ toString (vs.length + 1),
                      coins := c, code := code, submitted := false }])
            (objSet idx code pid) sup₂

/-- The `bulk_add_voters` handler (lines 169–179): `n = Math.max(1,
Math.min(Number(count)||1, 200))`, `c = Math.max(0, Number(coins)||10)`,
then the loop runs while `i < n`, i.e. `⌈n⌉` times. -/
def bulk_add_voters (st : ServerState) (id : String) (count coins : JsVal)
    (supply : List String) : Option (ServerState × List String) :=
  match lookupA st.polls id with
  | none => some (st, [])
  | some p =>
      let n : ℚ := max 1 (min (numOrD count 1) 200)
      let c : ℚ := max 0 (numOrD coins 10)
      match bulkLoop p.id c ⌈n⌉.toNat p.voters st.codeToPoll supply with
      | none => none
      | some (vs, idx, _) =>
          some ({ polls := objSet st.polls id { p with voters := vs },
                  codeToPoll := idx }, [id])

/-- JS array read `p.voters[index]` for a possibly negative index:
`undefined` unless `0 ≤ index < length`. -/
def jsIndex (l : List Voter) (i : ℤ) : Option Voter :=
  if h : 0 ≤ i ∧ i < l.length then l.get ⟨i.toNat, by omega⟩ else none

/-- JS `arr.splice(i, 1)`: a negative start counts from the end (clamped
at 0), a start past the end removes nothing. -/
def spliceRemove {α : Type} (l : List α) (i : ℤ) : List α :=
  let start : ℕ := if i < 0 then (max ((l.length : ℤ) + i) 0).toNat else i.toNat
  l.take start ++ l.drop (start + 1)

/-- The `delete_voter` handler (lines 201–207): read `p.voters[index]`,
delete its upper-cased code from the reverse index when the voter and its
code are truthy, then `splice(index, 1)`. -/
def delete_voter (st : ServerState) (id : String) (index : ℤ) :
    ServerState × List String :=
  match lookupA st.polls id with
  | none => (st, [])
  | some p =>
      let codeMap :=
        match jsIndex p.voters index with
        | some v => if v.code ≠ "" then deleteA st.codeToPoll (jsToUpper v.code) else st.codeToPoll
        | none => st.codeToPoll
      ({ polls := objSet st.polls id { p with voters := spliceRemove p.voters index },
         codeToPoll := codeMap }, [id])

/-- The `p.voters.find(...)` step followed by `voter.submitted = true` in
`submit_vote`: mark the first voter whose upper-cased code matches. -/
def markFirst (vs : List Voter) (up : String) : List Voter :=
  match vs with
  | [] => []
  | v :: rest =>
      if jsToUpper v.code = up then { v with submitted := true } :: rest
      else v :: markFirst rest up

/-- The `submit_vote` handler (lines 217–226): distinct failure acks for a
missing poll and a closed poll (no broadcast); otherwise store the
sanitized allocation under the upper-cased code, set `submitted` on the
first voter with that code, broadcast, ack `{ok:true}`. -/
def submit_vote (st : ServerState) (id code : String) (allocations : JsVal) :
    ServerState × Ack × List String :=
  match lookupA st.polls id with
  | none => (st, ⟨false, some "not found"⟩, [])
  | some p =>
      if p.status = "closed" then (st, ⟨false, some "closed"⟩, [])
      else
        let up := jsToUpper code
        let p₂ := { p with
          votes := objSet p.votes up (cleanAllocations allocations),
          voters := markFirst p.voters up }
        ({ st with polls := objSet st.polls id p₂ }, ⟨true, none⟩, [id])

/-- A command of the voter-creating subset of the state machine, with its
stream of random codes. -/
inductive Cmd where
  | addVoter (id : String) (voter : Option VoterIn) (supply : List String)
  | bulkAdd (id : String) (count coins : JsVal) (supply : List String)

/-- Run one command; a run that exhausts its finite random-code supply
model (impossible for the real unbounded generator) leaves the state
unchanged. -/
def applyCmd (st : ServerState) : Cmd → ServerState
  | .addVoter id voter supply =>
      match add_voter st id voter supply with
      | some (st₂, _) => st₂
      | none => st
  | .bulkAdd id count coins supply =>
      match bulk_add_voters st id count coins supply with
      | some (st₂, _) => st₂
      | none => st

/-- All voter codes stored across all polls of the state. -/
def codesOf (st : ServerState) : List String :=
  st.polls.flatMap (fun kv => kv.2.voters.map Voter.code)

/-- The code-uniqueness invariant: voter codes are globally pairwise
distinct, and each is a key of the reverse index. -/
def invariantS (st : ServerState) : Prop :=
  (codesOf st).Nodup ∧ ∀ c ∈ codesOf st, c ∈ keysA st.codeToPoll

instance (st : ServerState) : Decidable (invariantS st) := by
  unfold invariantS; infer_instance

/-- The poll record built by `create_poll` (lines 79–87). -/
def freshPoll (id : String) : Poll :=
  { id := id, title := "", status := "draft", options := [], voters := [], votes := [] }

/-- The concrete scenario poll of the spec (§8): options `o1`/"A" and
`o2`/"B", one voter with code "X1" and 10 coins, status open. -/
def scenarioPoll : Poll :=
  { id := "p", title := "", status := "open",
    options := [⟨"o1", "A"⟩, ⟨"o2", "B"⟩],
    voters := [⟨"Участник", 10, "X1", false⟩],
    votes := [] }

/-- Server state holding the scenario poll, code X1 registered. -/
def scenarioState : ServerState :=
  ⟨[("p", scenarioPoll)], [("X1", "p")]⟩

/-- The scenario vote payload `{o1: "3", o2: -5, junk: 2}`. -/
def scenarioPayload : JsVal :=
  .obj [("o1", .str "3"), ("o2", .num (-5)), ("junk", .num 2)]

/-- A state holding one freshly created poll "p". -/
def emptyState : ServerState := ⟨[("p", freshPoll "p")], []⟩

/-- The fresh poll "p" closed. -/
def closedPoll : Poll := { freshPoll "p" with status := "closed" }

/-- A state holding only the closed poll. -/
def closedState : ServerState := ⟨[("p", closedPoll)], []⟩

/-- A poll with option `o1` and the stored vote `{X1: {o1: 3, o2: 2}}`. -/
def c5Poll : Poll := { freshPoll "p" with options := [⟨"o1", "A"⟩], votes := [("X1", [("o1", 3), ("o2", 2)])] }

/-- A state holding `c5Poll`. -/
def c5State : ServerState := ⟨[("p", c5Poll)], []⟩

/-- Poll `c5Poll` after `delete_option` of `o1`. -/
def c5After : Poll := { freshPoll "p" with votes := [("X1", [("o2", 2)])] }

/-- An open poll with a single voter coded A1. -/
def c8Poll : Poll := { freshPoll "p" with status := "open", voters := [⟨"Участник", 10, "A1", false⟩] }

/-- A state holding `c8Poll` with A1 registered. -/
def c8State : ServerState := ⟨[("p", c8Poll)], [("A1", "p")]⟩

/-- The fresh poll after a bulk add of two voters V-A and V-B. -/
def bulkPoll : Poll := { freshPoll "p" with voters := [⟨"Участник 1", 10, "V-A", false⟩, ⟨"Участник 2", 10, "V-B", false⟩] }

/-- The state after that bulk add, both codes registered. -/
def bulkState : ServerState := ⟨[("p", bulkPoll)], [("V-A", "p"), ("V-B", "p")]⟩

/-- The fresh poll after a bulk add of the single voter V-A. -/
def bulkPoll1 : Poll := { freshPoll "p" with voters := [⟨"Участник 1", 10, "V-A", false⟩] }

/-! ### Association-list lemmas -/

theorem mem_objSet {α : Type} {l : List (String × α)} {k : String} {v : α}
    {p : String × α} (h : p ∈ objSet l k v) : p ∈ l ∨ p = (k, v) := by
  induction l with
  | nil =>
      simp only [objSet, List.mem_singleton] at h
      exact Or.inr h
  | cons hd tl ih =>
      obtain ⟨k₂, v₂⟩ := hd
      simp only [objSet] at h
      by_cases hk : k₂ = k
      · rw [if_pos hk] at h
        rcases List.mem_cons.mp h with h₂ | h₂
        · exact Or.inr h₂
        · exact Or.inl (List.mem_cons_of_mem _ h₂)
      · rw [if_neg hk] at h
        rcases List.mem_cons.mp h with h₂ | h₂
        · exact Or.inl (h₂ ▸ List.mem_cons_self _ _)
        · rcases ih h₂ with h₃ | h₃
          · exact Or.inl (List.mem_cons_of_mem _ h₃)
          · exact Or.inr h₃

theorem lookupA_objSet_self {α : Type} (l : List (String × α)) (k : String)
    (v : α) : lookupA (objSet l k v) k = some v := by
  induction l with
  | nil => simp [objSet, lookupA]
  | cons hd tl ih =>
      obtain ⟨k₂, v₂⟩ := hd
      simp only [objSet]
      by_cases hk : k₂ = k
      · rw [if_pos hk]
        simp [lookupA]
      · rw [if_neg hk]
        simp only [lookupA, if_neg hk]
        exact ih

theorem lookupA_objSet_ne {α : Type} (l : List (String × α)) {k k₂ : String}
    (v : α) (h : k₂ ≠ k) : lookupA (objSet l k v) k₂ = lookupA l k₂ := by
  induction l with
  | nil =>
      simp only [objSet, lookupA, if_neg (Ne.symm h)]
  | cons hd tl ih =>
      obtain ⟨k₃, v₃⟩ := hd
      simp only [objSet]
      by_cases hk : k₃ = k
      · rw [if_pos hk]
        simp only [lookupA, if_neg (Ne.symm h), hk]
      · rw [if_neg hk]
        simp only [lookupA, ih]

theorem keysA_objSet {α : Type} (l : List (String × α)) (k : String) (v : α) :
    keysA (objSet l k v) =
      if k ∈ keysA l then keysA l else keysA l ++ [k] := by
  induction l with
  | nil => simp [objSet, keysA]
  | cons hd tl ih =>
      obtain ⟨k₂, v₂⟩ := hd
      simp only [objSet]
      by_cases hk : k₂ = k
      · rw [if_pos hk]
        simp [keysA, hk]
      · rw [if_neg hk]
        have hne : ¬(k = k₂) := fun h₂ => hk h₂.symm
        simp only [keysA, List.map_cons] at ih ⊢
        rw [ih]
        by_cases hmem : k ∈ List.map Prod.fst tl
        · rw [if_pos hmem, if_pos (by simp [hmem])]
        · rw [if_neg hmem, if_neg (by simp [hne, hmem]), List.cons_append]

theorem mem_keysA_objSet_self {α : Type} (l : List (String × α)) (k : String)
    (v : α) : k ∈ keysA (objSet l k v) := by
  rw [keysA_objSet]
  by_cases h : k ∈ keysA l <;> simp [h]

theorem keysA_subset_objSet {α : Type} (l : List (String × α)) (k k₂ : String)
    (v : α) (h : k₂ ∈ keysA l) : k₂ ∈ keysA (objSet l k v) := by
  rw [keysA_objSet]
  by_cases hm : k ∈ keysA l <;> simp [hm, h]

theorem mem_keysA_of_lookupA {α : Type} {l : List (String × α)} {k : String}
    {v : α} (h : lookupA l k = some v) : k ∈ keysA l := by
  induction l with
  | nil => simp [lookupA] at h
  | cons hd tl ih =>
      obtain ⟨k₂, v₂⟩ := hd
      simp only [keysA, List.map_cons, List.mem_cons]
      by_cases hk : k₂ = k
      · exact Or.inl hk.symm
      · simp only [lookupA, if_neg hk] at h
        exact Or.inr (ih h)

theorem lookupA_isSome_of_mem_keysA {α : Type} {l : List (String × α)}
    {k : String} (h : k ∈ keysA l) : ∃ v, lookupA l k = some v := by
  induction l with
  | nil => simp [keysA] at h
  | cons hd tl ih =>
      obtain ⟨k₂, v₂⟩ := hd
      by_cases hk : k₂ = k
      · exact ⟨v₂, by simp [lookupA, hk]⟩
      · simp only [keysA, List.map_cons, List.mem_cons] at h
        rcases h with h | h
        · exact absurd h.symm hk
        · obtain ⟨v, hv⟩ := ih h
          exact ⟨v, by simp only [lookupA, if_neg hk]; exact hv⟩

theorem objSet_eq_append_of_not_mem {α : Type} {l : List (String × α)}
    {k : String} (v : α) (h : k ∉ keysA l) : objSet l k v = l ++ [(k, v)] := by
  induction l with
  | nil => rfl
  | cons hd tl ih =>
      obtain ⟨k₂, v₂⟩ := hd
      simp only [keysA, List.map_cons, List.mem_cons, not_or] at h
      simp only [objSet, if_neg (fun h₂ : k₂ = k => h.1 h₂.symm), List.cons_append,
        List.cons.injEq, true_and]
      exact ih h.2

theorem lookupA_split {α : Type} {l : List (String × α)} {k : String} {v : α}
    (h : lookupA l k = some v) :
    ∃ pre post, l = pre ++ (k, v) :: post ∧ k ∉ keysA pre ∧
      ∀ v₂, objSet l k v₂ = pre ++ (k, v₂) :: post := by
  induction l with
  | nil => simp [lookupA] at h
  | cons hd tl ih =>
      obtain ⟨k₂, v₂⟩ := hd
      by_cases hk : k₂ = k
      · subst hk
        have hv : v₂ = v := by simpa [lookupA] using h
        subst hv
        exact ⟨[], tl, by simp, by simp [keysA], fun v₃ => by simp [objSet]⟩
      · simp only [lookupA, if_neg hk] at h
        obtain ⟨pre, post, hl, hpre, hobj⟩ := ih h
        refine ⟨(k₂, v₂) :: pre, post, by simp [hl], ?_, fun v₃ => ?_⟩
        · simp only [keysA, List.map_cons, List.mem_cons, not_or]
          exact ⟨fun he => hk he.symm, hpre⟩
        · simp only [objSet, if_neg hk, List.cons_append, List.cons.injEq, true_and]
          exact hobj v₃

/-! ### Code generator lemmas -/

theorem findFresh_not_mem {index : List String} :
    ∀ {sup c sup₂}, ensureCodeUnique.findFresh index sup = some (c, sup₂) →
      c ∉ index := by
  intro sup
  induction sup with
  | nil => intro c sup₂ h; simp [ensureCodeUnique.findFresh] at h
  | cons hd tl ih =>
      intro c sup₂ h
      simp only [ensureCodeUnique.findFresh] at h
      by_cases hm : hd ∈ index
      · rw [if_pos hm] at h
        exact ih h
      · rw [if_neg hm] at h
        simp only [Option.some.injEq, Prod.mk.injEq] at h
        obtain ⟨rfl, rfl⟩ := h
        exact hm

theorem ensureCodeUnique_not_mem {index : List String} {pref : Option String}
    {sup : List String} {c : String} {sup₂ : List String}
    (h : ensureCodeUnique index pref sup = some (c, sup₂)) : c ∉ index := by
  match pref with
  | none => exact findFresh_not_mem h
  | some s =>
      simp only [ensureCodeUnique] at h
      by_cases hs : s = ""
      · rw [if_pos hs] at h
        exact findFresh_not_mem h
      · rw [if_neg hs] at h
        by_cases hm : jsToUpper s ∈ index
        · rw [if_pos hm] at h
          exact findFresh_not_mem h
        · rw [if_neg hm] at h
          simp only [Option.some.injEq, Prod.mk.injEq] at h
          obtain ⟨rfl, rfl⟩ := h
          exact hm

/-! ### Sanitizer lemmas -/

theorem cleanStep_nonneg {acc : List (String × ℤ)} {kv : String × JsVal}
    (hacc : ∀ p ∈ acc, 0 ≤ p.2) : ∀ p ∈ cleanStep acc kv, 0 ≤ p.2 := by
  intro p hp
  unfold cleanStep at hp
  by_cases hn : 0 < numOrD kv.2 0
  · rw [if_pos hn] at hp
    rcases mem_objSet hp with h | h
    · exact hacc p h
    · rw [h]
      exact Int.le_floor.mpr (by exact_mod_cast le_of_lt hn)
  · rw [if_neg hn] at hp
    exact hacc p hp

theorem foldl_cleanStep_nonneg (fields : List (String × JsVal)) :
    ∀ acc, (∀ p ∈ acc, 0 ≤ p.2) →
      ∀ p ∈ fields.foldl cleanStep acc, 0 ≤ p.2 := by
  induction fields with
  | nil => intro acc hacc; simpa using hacc
  | cons hd tl ih =>
      intro acc hacc
      simp only [List.foldl_cons]
      exact ih _ (cleanStep_nonneg hacc)

theorem cleanStep_keysA_nodup {acc : List (String × ℤ)} {kv : String × JsVal}
    (hacc : (keysA acc).Nodup) : (keysA (cleanStep acc kv)).Nodup := by
  unfold cleanStep
  by_cases hn : 0 < numOrD kv.2 0
  · rw [if_pos hn, keysA_objSet]
    by_cases hm : kv.1 ∈ keysA acc
    · rw [if_pos hm]; exact hacc
    · rw [if_neg hm]
      refine List.Nodup.append hacc (List.nodup_singleton _) ?_
      intro x hx hx₂
      rw [List.mem_singleton] at hx₂
      exact hm (hx₂ ▸ hx)
  · rw [if_neg hn]; exact hacc

theorem foldl_cleanStep_keysA_nodup (fields : List (String × JsVal)) :
    ∀ acc, (keysA acc).Nodup → (keysA (fields.foldl cleanStep acc)).Nodup := by
  induction fields with
  | nil => intro acc hacc; simpa using hacc
  | cons hd tl ih =>
      intro acc hacc
      simp only [List.foldl_cons]
      exact ih _ (cleanStep_keysA_nodup hacc)

theorem cleanAllocations_keysA_nodup (v : JsVal) :
    (keysA (cleanAllocations v)).Nodup := by
  match v with
  | .obj fields => exact foldl_cleanStep_keysA_nodup fields [] (by simp [keysA])
  | .undef | .null | .bool _ | .num _ | .str _ => simp [cleanAllocations, keysA]

/-- Re-sanitizing a list of strictly positive integer amounts with
pairwise distinct keys reproduces it behind any disjoint accumulator. -/
theorem foldl_cleanStep_of_posInt (l : List (String × ℤ)) :
    ∀ acc, (keysA l).Nodup → (∀ p ∈ l, 0 < p.2) →
      (∀ k ∈ keysA l, k ∉ keysA acc) →
      (l.map (fun kv => (kv.1, JsVal.num (kv.2 : ℚ)))).foldl cleanStep acc = acc ++ l := by
  induction l with
  | nil => intro acc _ _ _; simp
  | cons hd tl ih =>
      intro acc hnd hpos hdisj
      obtain ⟨k, n⟩ := hd
      have hn : 0 < n := hpos (k, n) (List.mem_cons_self _ _)
      have hq : numOrD (JsVal.num (n : ℚ)) 0 = (n : ℚ) := by
        simp only [numOrD, toNumber]
        rw [if_neg (by exact_mod_cast hn.ne')]
      simp only [List.map_cons, List.foldl_cons]
      have hstep : cleanStep acc (k, JsVal.num (n : ℚ)) = acc ++ [(k, n)] := by
        unfold cleanStep
        simp only [hq]
        rw [if_pos (by exact_mod_cast hn)]
        rw [Int.floor_intCast]
        exact objSet_eq_append_of_not_mem n
          (hdisj k (by simp [keysA]))
      have hcons : k ∉ keysA tl ∧ (keysA tl).Nodup := by
        have h₂ := hnd
        simp only [keysA, List.map_cons, List.nodup_cons] at h₂
        exact h₂
      rw [hstep]
      rw [ih (acc ++ [(k, n)]) hcons.2
        (fun p hp => hpos p (List.mem_cons_of_mem _ hp))
        ?_]
      · simp
      · intro k₂ hk₂
        simp only [keysA, List.map_append, List.map_cons, List.map_nil, List.mem_append,
          List.mem_singleton, not_or]
        refine ⟨hdisj k₂ ?_, fun he => hcons.1 (he ▸ hk₂)⟩
        simp only [keysA, List.map_cons, List.mem_cons]
        exact Or.inr hk₂

/-! ### Vote and voter handler lemmas -/

theorem markFirst_of_no_match {vs : List Voter} {up : String}
    (h : ∀ v ∈ vs, jsToUpper v.code ≠ up) : markFirst vs up = vs := by
  induction vs with
  | nil => rfl
  | cons hd tl ih =>
      simp only [markFirst]
      rw [if_neg (h hd (List.mem_cons_self _ _))]
      rw [ih (fun v hv => h v (List.mem_cons_of_mem _ hv))]

theorem spliceRemove_neg_one {l : List Voter} (h : l ≠ []) :
    spliceRemove l (-1) = l.dropLast := by
  unfold spliceRemove
  have hlen : 1 ≤ l.length := List.length_pos.mpr h
  rw [if_pos (by omega : (-1 : ℤ) < 0)]
  have hstart : (max ((l.length : ℤ) + (-1)) 0).toNat = l.length - 1 := by omega
  rw [hstart]
  show l.take (l.length - 1) ++ l.drop (l.length - 1 + 1) = l.dropLast
  have hdrop : l.drop (l.length - 1 + 1) = [] := by
    apply List.drop_eq_nil_of_le
    omega
  rw [hdrop, List.append_nil]
  rw [List.dropLast_eq_take]

theorem bulkLoop_spec {pid : String} {c : ℚ} :
    ∀ (m : ℕ) (vs : List Voter) (idx : List (String × String))
      (sup : List String) {vs₂ : List Voter} {idx₂ : List (String × String)}
      {sup₂ : List String},
      bulkLoop pid c m vs idx sup = some (vs₂, idx₂, sup₂) →
      ∃ new : List Voter,
        vs₂ = vs ++ new ∧
        new.length = m ∧
        (∀ v ∈ new, v.coins = c ∧ v.submitted = false) ∧
        (new.map Voter.code).Nodup ∧
        (∀ v ∈ new, v.code ∉ keysA idx) ∧
        (∀ v ∈ new, lookupA idx₂ v.code = some pid) ∧
        (∀ k₂ ∈ keysA idx, lookupA idx₂ k₂ = lookupA idx k₂) := by
  intro m
  induction m with
  | zero =>
      intro vs idx sup vs₂ idx₂ sup₂ h
      simp only [bulkLoop, Option.some.injEq, Prod.mk.injEq] at h
      obtain ⟨rfl, rfl, rfl⟩ := h
      exact ⟨[], by simp, rfl, by simp, by simp, by simp, by simp, by simp⟩
  | succ m ih =>
      intro vs idx sup vs₂ idx₂ sup₂ h
      simp only [bulkLoop] at h
      cases hc : ensureCodeUnique (keysA idx) none sup with
      | none => rw [hc] at h; exact absurd h (by simp)
      | some cs =>
          obtain ⟨code, sup₃⟩ := cs
          rw [hc] at h
          simp only at h
          have hfresh : code ∉ keysA idx := ensureCodeUnique_not_mem hc
          obtain ⟨new₂, hvs, hlen, hfields, hnd, hfresh₂, hlook, hpres⟩ :=
            ih (vs ++ [{ name := "Участник " ++ toString (vs.length + 1),
                         coins := c, code := code, submitted := false }])
              (objSet idx code pid) sup₃ h
          refine ⟨{ name := "Участник " ++ toString (vs.length + 1),
                    coins := c, code := code, submitted := false } :: new₂,
            ?_, by simp [hlen], ?_, ?_, ?_, ?_, ?_⟩
          · rw [hvs, List.append_assoc]
            rfl
          · intro v hv
            rcases List.mem_cons.mp hv with rfl | hv₂
            · exact ⟨rfl, rfl⟩
            · exact hfields v hv₂
          · simp only [List.map_cons, List.nodup_cons]
            refine ⟨?_, hnd⟩
            intro hmem
            obtain ⟨v, hv, hvc⟩ := List.mem_map.mp hmem
            exact hfresh₂ v hv (hvc ▸ mem_keysA_objSet_self idx code pid)
          · intro v hv
            rcases List.mem_cons.mp hv with rfl | hv₂
            · exact hfresh
            · intro hmem
              exact hfresh₂ v hv₂ (keysA_subset_objSet idx code v.code pid hmem)
          · intro v hv
            rcases List.mem_cons.mp hv with rfl | hv₂
            · rw [hpres code (mem_keysA_objSet_self idx code pid)]
              exact lookupA_objSet_self idx code pid
            · exact hlook v hv₂
          · intro k₂ hk₂
            have hne : k₂ ≠ code := fun he => hfresh (he ▸ hk₂)
            rw [hpres k₂ (keysA_subset_objSet idx code k₂ pid hk₂)]
            exact lookupA_objSet_ne idx pid hne

/-! ### Code-uniqueness invariant preservation -/

theorem codesOf_split {st : ServerState} {id : String} {p : Poll}
    {pre post : List (String × Poll)} (hsplit : st.polls = pre ++ (id, p) :: post) :
    codesOf st = pre.flatMap (fun kv => kv.2.voters.map Voter.code) ++
      (p.voters.map Voter.code ++
        post.flatMap (fun kv => kv.2.voters.map Voter.code)) := by
  unfold codesOf
  rw [hsplit]
  simp

theorem invariant_after_extend {st : ServerState} {id : String} {p : Poll}
    {new : List Voter} {idx₂ : List (String × String)}
    (hp : lookupA st.polls id = some p) (hinv : invariantS st)
    (hnd : (new.map Voter.code).Nodup)
    (hfresh : ∀ v ∈ new, v.code ∉ keysA st.codeToPoll)
    (hmem : ∀ v ∈ new, v.code ∈ keysA idx₂)
    (hpres : ∀ k ∈ keysA st.codeToPoll, k ∈ keysA idx₂) :
    invariantS
      { polls := objSet st.polls id { p with voters := p.voters ++ new },
        codeToPoll := idx₂ } := by
  obtain ⟨pre, post, hsplit, hprekeys, hobj⟩ := lookupA_split hp
  have hold : codesOf st =
      pre.flatMap (fun kv => kv.2.voters.map Voter.code) ++
        (p.voters.map Voter.code ++
          post.flatMap (fun kv => kv.2.voters.map Voter.code)) :=
    codesOf_split hsplit
  set A := pre.flatMap (fun kv => kv.2.voters.map Voter.code) with hA
  set B := p.voters.map Voter.code with hB
  set C := post.flatMap (fun kv => kv.2.voters.map Voter.code) with hC
  set N := new.map Voter.code with hN
  have hnew : codesOf
      { polls := objSet st.polls id { p with voters := p.voters ++ new },
        codeToPoll := idx₂ } = A ++ ((B ++ N) ++ C) := by
    unfold codesOf
    rw [hobj { p with voters := p.voters ++ new }]
    simp [hA, hB, hC, hN]
  have hCodes : ∀ x, (x ∈ A ∨ x ∈ B ∨ x ∈ C) → x ∈ codesOf st := by
    intro x hx
    rw [hold]
    simp only [List.mem_append]
    tauto
  have hNot : ∀ x ∈ N, x ∉ A ∧ x ∉ B ∧ x ∉ C := by
    intro x hx
    have hxn : x ∉ keysA st.codeToPoll := by
      obtain ⟨v, hv, rfl⟩ := List.mem_map.mp hx
      exact hfresh v hv
    exact ⟨fun h₂ => hxn (hinv.2 x (hCodes x (Or.inl h₂))),
      fun h₂ => hxn (hinv.2 x (hCodes x (Or.inr (Or.inl h₂)))),
      fun h₂ => hxn (hinv.2 x (hCodes x (Or.inr (Or.inr h₂))))⟩
  have hatoms := hinv.1
  rw [hold] at hatoms
  simp only [List.nodup_append, List.disjoint_append_right,
    List.disjoint_append_left] at hatoms
  constructor
  · rw [hnew]
    simp only [List.nodup_append, List.disjoint_append_right,
      List.disjoint_append_left]
    obtain ⟨hAnd, ⟨hBnd, hCnd, hBC⟩, hAB, hAC⟩ := hatoms
    exact ⟨hAnd, ⟨⟨hBnd, hnd, fun x hx hx₂ => (hNot x hx₂).2.1 hx⟩, hCnd, hBC,
      fun x hx hx₂ => (hNot x hx).2.2 hx₂⟩,
      ⟨hAB, fun x hx hx₂ => (hNot x hx₂).1 hx⟩, hAC⟩
  · intro c hc
    rw [hnew] at hc
    simp only [List.mem_append] at hc
    rcases hc with hc | hc
    · exact hpres c (hinv.2 c (hCodes c (Or.inl hc)))
    · rcases hc with hc | hc
      · rcases hc with hc | hc
        · exact hpres c (hinv.2 c (hCodes c (Or.inr (Or.inl hc))))
        · obtain ⟨v, hv, rfl⟩ := List.mem_map.mp hc
          exact hmem v hv
      · exact hpres c (hinv.2 c (hCodes c (Or.inr (Or.inr hc))))

theorem invariant_applyCmd (st : ServerState) (cmd : Cmd)
    (h : invariantS st) : invariantS (applyCmd st cmd) := by
  cases cmd with
  | addVoter id voter supply =>
      simp only [applyCmd]
      cases hav : add_voter st id voter supply with
      | none => exact h
      | some pair =>
          simp only
          simp only [add_voter] at hav
          cases hlook : lookupA st.polls id with
          | none =>
              rw [hlook] at hav
              simp only [Option.some.injEq] at hav
              rw [← hav]
              exact h
          | some p =>
              rw [hlook] at hav
              simp only at hav
              cases hc : ensureCodeUnique (keysA st.codeToPoll)
                  (voter.getD {}).code supply with
              | none => rw [hc] at hav; exact absurd hav (by simp)
              | some cs =>
                  obtain ⟨code, rest⟩ := cs
                  rw [hc] at hav
                  simp only [Option.some.injEq] at hav
                  rw [← hav]
                  refine invariant_after_extend hlook h (by simp) ?_ ?_ ?_
                  · intro v hv
                    rcases List.mem_singleton.mp hv with rfl
                    exact ensureCodeUnique_not_mem hc
                  · intro v hv
                    rcases List.mem_singleton.mp hv with rfl
                    exact mem_keysA_objSet_self st.codeToPoll code p.id
                  · intro k hk
                    exact keysA_subset_objSet st.codeToPoll code k p.id hk
  | bulkAdd id count coins supply =>
      simp only [applyCmd]
      cases hav : bulk_add_voters st id count coins supply with
      | none => exact h
      | some pair =>
          simp only
          simp only [bulk_add_voters] at hav
          cases hlook : lookupA st.polls id with
          | none =>
              rw [hlook] at hav
              simp only [Option.some.injEq] at hav
              rw [← hav]
              exact h
          | some p =>
              rw [hlook] at hav
              simp only at hav
              cases hbl : bulkLoop p.id (max 0 (numOrD coins 10))
                  ⌈max 1 (min (numOrD count 1) 200)⌉.toNat p.voters
                  st.codeToPoll supply with
              | none => rw [hbl] at hav; exact absurd hav (by simp)
              | some out =>
                  obtain ⟨vs₂, idx₂, sup₂⟩ := out
                  rw [hbl] at hav
                  simp only [Option.some.injEq] at hav
                  obtain ⟨new, hvs, _, _, hnd, hfresh, hlookup, hpres⟩ :=
                    bulkLoop_spec _ p.voters st.codeToPoll supply hbl
                  rw [← hav]
                  rw [hvs]
                  refine invariant_after_extend hlook h hnd hfresh ?_ ?_
                  · intro v hv
                    exact mem_keysA_of_lookupA (hlookup v hv)
                  · intro k hk
                    obtain ⟨v₂, hv₂⟩ := lookupA_isSome_of_mem_keysA hk
                    have := hpres k hk
                    rw [hv₂] at this
                    exact mem_keysA_of_lookupA this

/-- Evaluating `Number(count) || 1` of an integer count, clamped and ceiled as the
loop bound of `bulk_add_voters`, equals the integer clamp to [1, 200]. -/
theorem ceil_clamp_intCast (k : ℤ) :
    (⌈max 1 (min (numOrD (.num (k : ℚ)) 1) 200)⌉).toNat =
      (max 1 (min k 200)).toNat := by
  by_cases hk : k = 0
  · subst hk
    norm_num [numOrD, toNumber]
  · have hk₂ : ((k : ℚ)) ≠ 0 := Int.cast_ne_zero.mpr hk
    simp only [numOrD, toNumber, if_neg hk₂]
    have hcast : max 1 (min ((k : ℚ)) 200) = ((max 1 (min k 200) : ℤ) : ℚ) := by
      push_cast
      rfl
    rw [hcast, Int.ceil_intCast]

/-! ### Claim theorems -/

/-- C1 (amended): `cleanAllocations` always returns integer amounts that
are nonnegative — not necessarily strictly positive, since a raw value
coercing to a number strictly between 0 and 1 passes the `n > 0` guard
and is then floored to 0 — and non-object input yields the empty
allocation. -/
theorem C1_cleanAllocations_nonneg (v : JsVal) :
    (∀ p ∈ cleanAllocations v, 0 ≤ p.2) ∧
      (isObjB v = false → cleanAllocations v = []) := by
  constructor
  · intro p hp
    cases v with
    | obj fields => exact foldl_cleanStep_nonneg fields [] (by simp) p hp
    | undef => simp [cleanAllocations] at hp
    | null => simp [cleanAllocations] at hp
    | bool b => simp [cleanAllocations] at hp
    | num q => simp [cleanAllocations] at hp
    | str s => simp [cleanAllocations] at hp
  · intro hobj
    cases v
    case obj fields => simp [isObjB] at hobj
    all_goals rfl

/-- C1 witness: the nonnegativity bound and the non-object clause of
`C1_cleanAllocations_nonneg` evaluated at concrete inputs. -/
theorem C1_cleanAllocations_nonneg_witness :
    (0 : ℤ) ≤ (("k", (0 : ℤ))).2 ∧ cleanAllocations (.str "oops") = [] :=
  ⟨(C1_cleanAllocations_nonneg (.obj [("k", .num half)])).1 ("k", 0) (by decide),
   (C1_cleanAllocations_nonneg (.str "oops")).2 rfl⟩

/-- C1 counterexample: the input `{k: 0.5}` sanitizes to `{k: 0}` — a
zero amount is stored, refuting strict positivity of every value. -/
theorem C1_zero_amount_counterexample :
    cleanAllocations (.obj [("k", .num half)]) = [("k", 0)] ∧
      ¬ ∀ p ∈ cleanAllocations (.obj [("k", .num half)]), 0 < p.2 := by
  constructor <;> decide

/-- C3 (amended): `cleanAllocations` is idempotent on every input whose
first sanitization yields only strictly positive amounts; it is not
idempotent in general because an entry stored as 0 (raw value in (0,1))
is dropped by the second pass. -/
theorem C3_sanitize_idempotent_on_positive (v : JsVal)
    (h : ∀ p ∈ cleanAllocations v, 0 < p.2) :
    cleanAllocations (allocToJs (cleanAllocations v)) = cleanAllocations v := by
  unfold allocToJs
  have hnd := cleanAllocations_keysA_nodup v
  have hmain := foldl_cleanStep_of_posInt (cleanAllocations v) [] hnd h
    (by simp [keysA])
  simpa [cleanAllocations] using hmain

/-- C3 witness: idempotence at the all-positive input `{a: 3}`. -/
theorem C3_sanitize_idempotent_witness :
    (∀ p ∈ cleanAllocations (.obj [("a", .num 3)]), 0 < p.2) ∧
      cleanAllocations (allocToJs (cleanAllocations (.obj [("a", .num 3)]))) =
        cleanAllocations (.obj [("a", .num 3)]) :=
  ⟨by decide, C3_sanitize_idempotent_on_positive (.obj [("a", .num 3)]) (by decide)⟩

/-- C3 counterexample: on `{k: 0.5}` the first pass stores `{k: 0}` and
the second pass drops the zero entry, so the two passes differ. -/
theorem C3_idempotence_counterexample :
    cleanAllocations (allocToJs (cleanAllocations (.obj [("k", .num half)]))) ≠
      cleanAllocations (.obj [("k", .num half)]) := by
  decide

/-- C2 (amended): in the concrete scenario (poll with options o1/o2,
voter X1 with 10 coins, status open), `submit_vote` with code "x1" and
allocations `{o1: "3", o2: -5, junk: 2}` stores `{o1: 3, junk: 2}` under
the upper-cased code — the negative entry is dropped but the
unknown-option key "junk" is kept, as the sanitizer performs no
cross-check against the option list — sets X1's submitted flag, and
acknowledges `{ok: true}`. -/
theorem C2_scenario_submit_vote :
    submit_vote scenarioState "p" "x1" scenarioPayload =
      (⟨[("p", { scenarioPoll with
                 voters := [⟨"Участник", 10, "X1", true⟩],
                 votes := [("X1", [("o1", 3), ("junk", 2)])] })], [("X1", "p")]⟩,
       ⟨true, none⟩, ["p"]) := by
  decide

/-- C2 counterexample: the stored allocation in the scenario is
`{o1: 3, junk: 2}`, not the claimed `{o1: 3}` — the unknown-option key
is not dropped. -/
theorem C2_scenario_counterexample :
    (lookupA (submit_vote scenarioState "p" "x1" scenarioPayload).1.polls "p").map
        Poll.votes = some [("X1", [("o1", 3), ("junk", 2)])] ∧
      [("o1", (3 : ℤ)), ("junk", 2)] ≠ [("o1", 3)] := by
  constructor <;> decide

/-- C4 (amended): a successful `bulk_add_voters` on an existing poll with
an integer count appends exactly `clamp(count, 1, 200)` voters; each gets
the coin amount `max 0 (Number(coins) || 10)` — so an absent, non-numeric
or zero coin value yields the default 10 (not 0), and negative amounts
clamp to 0 — a fresh code absent from the prior reverse index, globally
pairwise distinct and registered to the poll, and `submitted = false`. -/
theorem C4_bulk_add_voters_spec (st : ServerState) (id : String) (k : ℤ)
    (coins : JsVal) (supply : List String) (p : Poll)
    (out : ServerState × List String)
    (hp : lookupA st.polls id = some p)
    (h : bulk_add_voters st id (.num (k : ℚ)) coins supply = some out) :
    ∃ new : List Voter,
      out.1.polls = objSet st.polls id { p with voters := p.voters ++ new } ∧
      out.2 = [id] ∧
      new.length = (max 1 (min k 200)).toNat ∧
      (∀ v ∈ new, v.coins = max 0 (numOrD coins 10) ∧ v.submitted = false) ∧
      (new.map Voter.code).Nodup ∧
      (∀ v ∈ new, v.code ∉ keysA st.codeToPoll ∧
        lookupA out.1.codeToPoll v.code = some p.id) := by
  simp only [bulk_add_voters] at h
  rw [hp] at h
  simp only at h
  cases hbl : bulkLoop p.id (max 0 (numOrD coins 10))
      ⌈max 1 (min (numOrD (.num (k : ℚ)) 1) 200)⌉.toNat p.voters
      st.codeToPoll supply with
  | none => rw [hbl] at h; exact absurd h (by simp)
  | some outL =>
      obtain ⟨vs₂, idx₂, sup₂⟩ := outL
      rw [hbl] at h
      simp only [Option.some.injEq] at h
      obtain ⟨new, hvs, hlen, hfields, hnd, hfresh, hlook, _⟩ :=
        bulkLoop_spec _ p.voters st.codeToPoll supply hbl
      subst h
      refine ⟨new, ?_, rfl, ?_, hfields, hnd, fun v hv => ⟨hfresh v hv, hlook v hv⟩⟩
      · simp only
        rw [hvs]
      · rw [hlen, ceil_clamp_intCast]

/-- C4 witness: `bulk_add_voters` with count 2 and non-numeric coins
"abc" on an empty poll, with the theorem applied to that run. -/
theorem C4_bulk_add_voters_spec_witness :
    lookupA emptyState.polls "p" = some (freshPoll "p") ∧
      bulk_add_voters emptyState "p" (.num (2 : ℤ)) (.str "abc") ["V-A", "V-B"] =
        some (bulkState, ["p"]) ∧
      ∃ new : List Voter,
        bulkState.polls =
          objSet emptyState.polls "p"
            { freshPoll "p" with voters := (freshPoll "p").voters ++ new } ∧
        (["p"] : List String) = ["p"] ∧
        new.length = (max 1 (min 2 200) : ℤ).toNat ∧
        (∀ v ∈ new, v.coins = max 0 (numOrD (.str "abc") 10) ∧
          v.submitted = false) ∧
        (new.map Voter.code).Nodup ∧
        (∀ v ∈ new, v.code ∉ keysA emptyState.codeToPoll ∧
          lookupA bulkState.codeToPoll v.code = some (freshPoll "p").id) :=
  ⟨by decide, by decide,
   C4_bulk_add_voters_spec emptyState "p" 2 (.str "abc") ["V-A", "V-B"]
     (freshPoll "p") (bulkState, ["p"]) (by decide) (by decide)⟩

/-- C4 counterexample: with non-numeric coins `"abc"` the created voter
receives 10 coins (the `|| 10` default), not 0 as the claim states. -/
theorem C4_nonnumeric_coins_counterexample :
    bulk_add_voters emptyState "p" (.num 1) (.str "abc") ["V-A"] =
        some (⟨[("p", bulkPoll1)], [("V-A", "p")]⟩, ["p"]) ∧
      (10 : ℚ) ≠ 0 := by
  constructor
  · decide
  · norm_num

/-- C5: after `delete_option`, the poll's stored votes contain no entry
keyed by the deleted option id — referential cleanup is applied across
all allocations in the same operation. -/
theorem C5_delete_option_purges (st : ServerState) (id optId : String)
    (p₂ : Poll) (h : lookupA (delete_option st id optId).1.polls id = some p₂) :
    ∀ kv ∈ p₂.votes, ∀ e ∈ kv.2, e.1 ≠ optId := by
  unfold delete_option at h
  cases hlook : lookupA st.polls id with
  | none =>
      rw [hlook] at h
      simp only at h
      exact absurd h (by rw [hlook]; simp)
  | some p =>
      rw [hlook] at h
      simp only at h
      rw [lookupA_objSet_self] at h
      obtain rfl := Option.some.inj h
      intro kv hkv e he
      simp only [List.mem_map] at hkv
      obtain ⟨kv₀, hkv₀, rfl⟩ := hkv
      simp only [List.mem_filter, decide_eq_true_eq] at he
      exact he.2

/-- C5 witness: deleting option `o1` from a poll holding the vote
`{X1: {o1: 3, o2: 2}}` leaves the entry keyed `o2`, whose key the
theorem separates from `o1`. -/
theorem C5_delete_option_purges_witness :
    lookupA (delete_option c5State "p" "o1").1.polls "p" = some c5After ∧
      ("o2" : String) ≠ "o1" :=
  ⟨by decide,
   C5_delete_option_purges c5State "p" "o1" c5After (by decide)
     ("X1", [("o2", 2)]) (by decide) ("o2", 2) (by decide)⟩

/-- C6: the code-uniqueness invariant — voter codes globally pairwise
distinct and each registered in the reverse index — is preserved by any
sequence of `add_voter` / `bulk_add_voters` commands, because
`ensureCodeUnique` retries until its candidate is absent from the
reverse index before the code is registered. -/
theorem C6_voter_codes_unique (st : ServerState) (cmds : List Cmd)
    (h : invariantS st) : invariantS (cmds.foldl applyCmd st) := by
  induction cmds generalizing st with
  | nil => simpa using h
  | cons hd tl ih => exact ih _ (invariant_applyCmd st hd h)

/-- C6 witness: a fresh poll, one `add_voter` and one `bulk_add_voters`
whose random supply first collides with the existing code V-AAA. -/
theorem C6_voter_codes_unique_witness :
    invariantS ⟨[("p", freshPoll "p")], []⟩ ∧
      invariantS (([Cmd.addVoter "p" none ["V-AAA"],
        Cmd.bulkAdd "p" (.num 2) (.num 5) ["V-AAA", "V-BBB", "V-CCC"]]).foldl
          applyCmd ⟨[("p", freshPoll "p")], []⟩) :=
  ⟨by decide, C6_voter_codes_unique ⟨[("p", freshPoll "p")], []⟩
    [Cmd.addVoter "p" none ["V-AAA"],
     Cmd.bulkAdd "p" (.num 2) (.num 5) ["V-AAA", "V-BBB", "V-CCC"]] (by decide)⟩

/-- C7: `submit_vote` on a closed poll leaves the whole state unchanged,
acknowledges `{ok: false, error: "closed"}` and broadcasts nothing. -/
theorem C7_submit_vote_closed (st : ServerState) (id code : String)
    (alloc : JsVal) (p : Poll) (hp : lookupA st.polls id = some p)
    (hclosed : p.status = "closed") :
    submit_vote st id code alloc = (st, ⟨false, some "closed"⟩, []) := by
  unfold submit_vote
  rw [hp]
  simp [hclosed]

/-- C7 witness: the closed-poll failure at a concrete closed poll. -/
theorem C7_submit_vote_closed_witness :
    lookupA closedState.polls "p" = some closedPoll ∧
      submit_vote closedState "p" "x1" (.obj [("o1", .num 2)]) =
        (closedState, ⟨false, some "closed"⟩, []) :=
  ⟨by decide,
   C7_submit_vote_closed closedState "p" "x1" (.obj [("o1", .num 2)])
     closedPoll (by decide) rfl⟩

/-- C8: on a non-closed poll, `submit_vote` with a code matching no voter
still stores the sanitized allocation under the upper-cased code,
acknowledges success and broadcasts, and leaves the voters (hence every
`submitted` flag) unchanged. -/
theorem C8_submit_vote_unknown_code (st : ServerState) (id code : String)
    (alloc : JsVal) (p : Poll) (hp : lookupA st.polls id = some p)
    (hopen : p.status ≠ "closed")
    (hno : ∀ v ∈ p.voters, jsToUpper v.code ≠ jsToUpper code) :
    submit_vote st id code alloc =
      ({ st with polls := (objSet st.polls id
          { p with
              votes := (objSet p.votes (jsToUpper code) (cleanAllocations alloc)) }) },
       ⟨true, none⟩, [id]) := by
  unfold submit_vote
  rw [hp]
  simp only [if_neg hopen]
  rw [markFirst_of_no_match hno]

/-- C8 witness: an open poll with one voter coded A1 and a submission
under the unknown code "zz". -/
theorem C8_submit_vote_unknown_code_witness :
    lookupA c8State.polls "p" = some c8Poll ∧
      submit_vote c8State "p" "zz" (.obj [("o1", .num 2)]) =
        ({ c8State with polls := (objSet c8State.polls "p"
            { c8Poll with
                votes := (objSet c8Poll.votes (jsToUpper "zz") (cleanAllocations (.obj [("o1", .num 2)]))) }) },
         ⟨true, none⟩, ["p"]) :=
  ⟨by decide,
   C8_submit_vote_unknown_code c8State "p" "zz" (.obj [("o1", .num 2)])
     c8Poll (by decide) (by decide) (by decide)⟩

/-- C9 (amended): `add_option` on an existing poll appends exactly one
option and broadcasts; when the input or its id is absent (or the id is
the empty string) BOTH id and label default — fresh id, placeholder label
"Новый вариант"; when an id is given, an absent label defaults to the
empty string, not to the placeholder. -/
theorem C9_add_option_appends (st : ServerState) (id : String)
    (opt : Option OptIn) (freshId : String) (p : Poll)
    (hp : lookupA st.polls id = some p) :
    ∃ o : Opt,
      add_option st id opt freshId =
        ({ st with polls := (objSet st.polls id
            { p with options := p.options ++ [o] }) }, [id]) ∧
      ((opt = none ∨ ∃ o₂, opt = some o₂ ∧ (o₂.oid = none ∨ o₂.oid = some "")) →
        o = ⟨freshId, "Новый вариант"⟩) ∧
      (∀ o₂ s, opt = some o₂ → o₂.oid = some s → s ≠ "" →
        o = ⟨s, o₂.olabel.getD ""⟩) := by
  unfold add_option
  rw [hp]
  dsimp only
  cases opt with
  | none =>
      exact ⟨⟨freshId, "Новый вариант"⟩, rfl, fun _ => rfl, by intro o₂ s h; cases h⟩
  | some o₂ =>
      dsimp only
      cases ho : o₂.oid with
      | none =>
          refine ⟨⟨freshId, "Новый вариант"⟩, rfl, fun _ => rfl, ?_⟩
          intro o₃ s h₁ h₂
          obtain rfl := Option.some.inj h₁
          rw [ho] at h₂
          cases h₂
      | some sId =>
          by_cases hs : sId = ""
          · subst hs
            refine ⟨⟨freshId, "Новый вариант"⟩, by simp, fun _ => rfl, ?_⟩
            intro o₃ s h₁ h₂ h₃
            obtain rfl := Option.some.inj h₁
            rw [ho] at h₂
            obtain rfl := Option.some.inj h₂
            exact absurd rfl h₃
          · refine ⟨⟨sId, o₂.olabel.getD ""⟩, by simp [hs], ?_, ?_⟩
            · intro hcase
              rcases hcase with h | ⟨o₃, h₁, h₂⟩
              · cases h
              · obtain rfl := Option.some.inj h₁
                rw [ho] at h₂
                rcases h₂ with h₂ | h₂
                · cases h₂
                · exact absurd (Option.some.inj h₂) hs
            · intro o₃ s h₁ h₂ _
              obtain rfl := Option.some.inj h₁
              rw [ho] at h₂
              obtain rfl := Option.some.inj h₂
              rfl

/-- C9 witness: `add_option` with an explicit id and label appends that
option; the defaulting clauses are vacuous for this input. -/
theorem C9_add_option_appends_witness :
    lookupA emptyState.polls "p" = some (freshPoll "p") ∧
      ∃ o : Opt,
        add_option emptyState "p" (some ⟨some "a", some "L"⟩) "f" =
          ({ emptyState with polls := (objSet emptyState.polls "p"
              { freshPoll "p" with options := (freshPoll "p").options ++ [o] }) },
           ["p"]) ∧
        ((some ⟨some "a", some "L"⟩ = (none : Option OptIn) ∨
            ∃ o₂, (some ⟨some "a", some "L"⟩ : Option OptIn) = some o₂ ∧
              (o₂.oid = none ∨ o₂.oid = some "")) →
          o = ⟨"f", "Новый вариант"⟩) ∧
        (∀ o₂ s, (some ⟨some "a", some "L"⟩ : Option OptIn) = some o₂ →
          o₂.oid = some s → s ≠ "" → o = ⟨s, o₂.olabel.getD ""⟩) :=
  ⟨by decide,
   C9_add_option_appends emptyState "p" (some ⟨some "a", some "L"⟩) "f"
     (freshPoll "p") (by decide)⟩

/-- C9 counterexample: `add_option` with `{id: "a"}` and no label appends
`{id: "a", label: ""}` — the label defaults to the empty string, not to
the placeholder, refuting "label defaults to a placeholder when absent". -/
theorem C9_label_default_counterexample :
    (lookupA (add_option emptyState "p" (some ⟨some "a", none⟩) "f").1.polls
        "p").map Poll.options = some [⟨"a", ""⟩] ∧
      ("" : String) ≠ "Новый вариант" := by
  constructor <;> decide

/-- C10: `delete_voter` with index `-1` on a poll with at least one voter
removes the last voter (`splice(-1, 1)`) and broadcasts, but — because
`voters[-1]` is `undefined` — deletes nothing from the reverse index,
leaving any entry of the removed voter's code dangling. -/
theorem C10_delete_voter_neg_index (st : ServerState) (id : String) (p : Poll)
    (hp : lookupA st.polls id = some p) (hne : p.voters ≠ []) :
    delete_voter st id (-1) =
      (⟨objSet st.polls id { p with voters := p.voters.dropLast },
        st.codeToPoll⟩, [id]) := by
  unfold delete_voter
  rw [hp]
  dsimp only
  have hidx : jsIndex p.voters (-1) = none := by
    unfold jsIndex
    rw [dif_neg]
    intro hcon
    exact absurd hcon.1 (by omega)
  rw [hidx]
  rw [spliceRemove_neg_one hne]

/-- C10 witness: deleting index -1 from the poll with single voter A1
keeps the reverse-index entry ("A1", "p") while the voter is removed. -/
theorem C10_delete_voter_neg_index_witness :
    lookupA c8State.polls "p" = some c8Poll ∧
      (c8Poll.voters ≠ []) ∧
      delete_voter c8State "p" (-1) =
        (⟨objSet c8State.polls "p" { c8Poll with voters := c8Poll.voters.dropLast },
          c8State.codeToPoll⟩, ["p"]) :=
  ⟨by decide, by decide,
   C10_delete_voter_neg_index c8State "p" c8Poll (by decide) (by decide)⟩
